import Mathlib

/-!
Verification of the exam-timeline pipeline.

This file gives a shallow embedding of the record-reconciliation pipeline of
the repository (src/passed_exams.py and src/fetch_credly_badges.py) and
proves properties of it.  Python dictionaries parsed from JSON are modelled
by the `Json` inductive (objects as association lists in document order,
which is also Python dict insertion order); machine strings are Lean
`String`s, compared by code point exactly as Python compares them; the
stable Timsort used by Python `list.sort` is modelled by a stable insertion
sort over the same comparator.
-/

set_option maxHeartbeats 1000000

namespace ExamTimeline

open scoped List

/-- A row produced by the extractors in src/passed_exams.py: the dictionary
with keys "Exam Title", "Exam Number", "Exam Date", "Source". -/
structure ExamRec where
  examTitle : String
  examNumber : String
  examDate : String
  source : String
deriving DecidableEq

/-- A row produced by extract_badges in src/fetch_credly_badges.py: the
dictionary with keys "Badge Name", "Issuer", "Issue Date". -/
structure BadgeRec where
  badgeName : String
  issuer : String
  issueDate : String
deriving DecidableEq

/-- JSON trees as returned by the upstream APIs.  Objects are association
lists of key/value pairs in document order. -/
inductive Json where
  | null : Json
  | bool : Bool → Json
  | str : String → Json
  | arr : List Json → Json
  | obj : List (String × Json) → Json

/-- First value bound to a key in an association list (Python dict lookup;
keys of a parsed JSON object are unique, so first match is the match). -/
def jsonLookup : List (String × Json) → String → Option Json
  | [], _ => none
  | (k1, v) :: rest, k => if k1 = k then some v else jsonLookup rest k

/-- Python d.get(k): the value bound to key k of a JSON object, if any. -/
def Json.get? : Json → String → Option Json
  | Json.obj kvs, k => jsonLookup kvs k
  | _, _ => none

/-- String value at a key, with "" for a missing (or non-string) value:
models the d.get(k) / d.get(k, "") accesses whose results the scripts use
as strings. -/
def strField (j : Json) (k : String) : String :=
  match j.get? k with
  | some (Json.str s) => s
  | _ => ""

/-- Object value at a key, defaulting to the empty object: models
d.get(k, {}). -/
def objField (j : Json) (k : String) : Json :=
  match j.get? k with
  | some v => v
  | none => Json.obj []

/-- List value at a key, with [] for a missing value: models d.get(k, []). -/
def arrField (j : Json) (k : String) : List Json :=
  match j.get? k with
  | some (Json.arr l) => l
  | _ => []

/-- Python `a or b` on strings: the empty string is falsy. -/
def pyOr (a b : String) : String := if a = "" then b else a

/-- Python str.lower() (ASCII range, which covers all keys and slugs the
scripts compare). -/
def strLower (s : String) : String := String.mk (s.data.map Char.toLower)

/-- needle occurs as a prefix of hay (on character lists). -/
def seqStarts : List Char → List Char → Bool
  | [], _ => true
  | _ :: _, [] => false
  | a :: as, b :: bs => a = b && seqStarts as bs

/-- needle occurs as a contiguous subsequence of hay: Python `needle in hay`
for strings. -/
def seqIn (needle : List Char) (hay : List Char) : Bool :=
  seqStarts needle hay ||
    match hay with
    | [] => false
    | _ :: rest => seqIn needle rest

/-- Python `sub in hay` on strings. -/
def pyContains (hay sub : String) : Bool := seqIn sub.data hay.data

/-- Python s.startswith(p). -/
def pyStarts (s p : String) : Bool := seqStarts p.data s.data

/-- Python s.split("T")[0]: the text before the first occurrence of the
character T (the whole string if it has no T). -/
def beforeT (s : String) : String :=
  String.mk (s.data.takeWhile (fun c => c ≠ 'T'))

/-! ### The transcript extractor (src/passed_exams.py, extract_microsoft_exams) -/

/-- The nested helper find_passed_exams of extract_microsoft_exams: walk the
JSON tree; inside an object, a key equal to "passedexams" case-insensitively
whose value is a list is returned at once; any other value is searched
recursively and a non-empty result is propagated; list elements are searched
in order. -/
def findPE : Json → List Json
  | Json.obj ((k, Json.arr l) :: rest) =>
      if strLower k = "passedexams" then l
      else
        let f := findPE (Json.arr l)
        if f.isEmpty then findPE (Json.obj rest) else f
  | Json.obj ((_, Json.obj kvs) :: rest) =>
      let f := findPE (Json.obj kvs)
      if f.isEmpty then findPE (Json.obj rest) else f
  | Json.obj ((_, Json.null) :: rest) => findPE (Json.obj rest)
  | Json.obj ((_, Json.bool _) :: rest) => findPE (Json.obj rest)
  | Json.obj ((_, Json.str _) :: rest) => findPE (Json.obj rest)
  | Json.arr (x :: rest) =>
      let f := findPE x
      if f.isEmpty then findPE (Json.arr rest) else f
  | Json.obj [] => []
  | Json.arr [] => []
  | Json.null => []
  | Json.bool _ => []
  | Json.str _ => []

/-- The occurrence relation realised by find_passed_exams: the tree node
holds, at some reachable position, an object entry whose key compares equal
to "passedexams" after lowercasing and whose value is the list l.
Reachable positions are exactly the ones the Python recursion visits:
entries of an object in order (descending into dict and list values), and
elements of a list in order. -/
inductive Occurs : Json → List Json → Prop where
  | head (k : String) (l : List Json) (rest : List (String × Json)) :
      strLower k = "passedexams" → Occurs (Json.obj ((k, Json.arr l) :: rest)) l
  | objVal (k : String) (v : Json) (rest : List (String × Json)) (l : List Json) :
      Occurs v l → Occurs (Json.obj ((k, v) :: rest)) l
  | objRest (kv : String × Json) (rest : List (String × Json)) (l : List Json) :
      Occurs (Json.obj rest) l → Occurs (Json.obj (kv :: rest)) l
  | arrHead (x : Json) (rest : List Json) (l : List Json) :
      Occurs x l → Occurs (Json.arr (x :: rest)) l
  | arrRest (x : Json) (rest : List Json) (l : List Json) :
      Occurs (Json.arr rest) l → Occurs (Json.arr (x :: rest)) l

/-- The row built from one raw passed-exam entry by extract_microsoft_exams:
title/number/date each via an `a or b or ""` fallback chain over two key
spellings, the date truncated at the first T when non-empty. -/
def msRecOfEntry (e : Json) : ExamRec :=
  let rawDate := pyOr (strField e "examDateTaken") (strField e "ExamDateTaken")
  { examTitle := pyOr (strField e "examTitle") (strField e "ExamTitle")
    examNumber := pyOr (strField e "examNumber") (strField e "ExamNumber")
    examDate := if rawDate = "" then "" else beforeT rawDate
    source := "Microsoft Learn" }

/-- extract_microsoft_exams of src/passed_exams.py. -/
def extractMicrosoftExams (transcriptJson : Json) : List ExamRec :=
  (findPE transcriptJson).map msRecOfEntry

/-! ### The Credly exam extractor (src/passed_exams.py, extract_credly_exams) -/

/-- CREDLY_TO_EXAM_MAP of src/passed_exams.py, in declaration order (Python
dicts iterate in insertion order). -/
def credlyToExamMap : List (String × String) :=
  [("microsoft-certified-azure-fundamentals", "AZ-900"),
   ("microsoft-certified-azure-administrator-associate", "AZ-104"),
   ("microsoft-certified-azure-solutions-architect-expert", "AZ-305"),
   ("microsoft-certified-azure-developer-associate", "AZ-204"),
   ("microsoft-certified-azure-security-engineer-associate", "AZ-500"),
   ("microsoft-certified-azure-ai-fundamentals", "AI-900"),
   ("microsoft-certified-azure-data-fundamentals", "DP-900"),
   ("microsoft-certified-power-platform-fundamentals", "PL-900"),
   ("microsoft-365-certified-fundamentals", "MS-900"),
   ("microsoft-certified-security-compliance-and-identity-fundamentals", "SC-900"),
   ("microsoft-certified-devops-engineer-expert", "AZ-400"),
   ("microsoft-certified-identity-and-access-administrator-associate", "SC-300"),
   ("github-copilot", "GH-300")]

/-- The body of the per-badge loop of extract_credly_exams: the first table
entry whose fragment occurs in the lowercased slug gives the exam number;
otherwise a name containing microsoft or github (case-insensitively) gives
the fallback record; otherwise the badge yields no record. -/
def extractCredlyOne (badge : Json) : Option ExamRec :=
  let tmpl := objField badge "badge_template"
  let badgeName := strField tmpl "name"
  let badgeSlug := strField tmpl "badge_template_earnable_id"
  let issuedAt := strField badge "issued_at_date"
  match credlyToExamMap.find? (fun p => pyContains (strLower badgeSlug) p.1) with
  | some p =>
      some { examTitle := badgeName, examNumber := p.2,
             examDate := issuedAt, source := "Credly" }
  | none =>
      if pyContains (strLower badgeName) "microsoft" ||
         pyContains (strLower badgeName) "github" then
        some { examTitle := badgeName, examNumber := "Badge: " ++ badgeSlug,
               examDate := issuedAt, source := "Credly" }
      else none

/-- extract_credly_exams of src/passed_exams.py. -/
def extractCredlyExams (badges : List Json) : List ExamRec :=
  badges.filterMap extractCredlyOne

/-! ### The badge extractor (src/fetch_credly_badges.py, extract_badges) -/

/-- Python entity.get("primary", False) used as a truth value. -/
def isPrimaryEntity (entity : Json) : Bool :=
  match entity.get? "primary" with
  | some (Json.bool true) => true
  | _ => false

/-- entity.get("entity", {}).get("name", ""). -/
def entityName (entity : Json) : String :=
  strField (objField entity "entity") "name"

/-- badge.get("issuer", {}).get("entities", []). -/
def entitiesOf (badge : Json) : List Json :=
  arrField (objField badge "issuer") "entities"

/-- The issuer-name computation of extract_badges: the name of the first
entity marked primary; if that leaves the name empty, the name of the first
entity; empty when the entities list is empty. -/
def issuerOf (badge : Json) : String :=
  let entities := entitiesOf badge
  let fromPrimary :=
    match entities.find? isPrimaryEntity with
    | some ent => entityName ent
    | none => ""
  if fromPrimary = "" then
    match entities with
    | [] => ""
    | e :: _ => entityName e
  else fromPrimary

/-- The row built from one badge entry by extract_badges. -/
def badgeRecOf (badge : Json) : BadgeRec :=
  { badgeName := strField (objField badge "badge_template") "name"
    issuer := issuerOf badge
    issueDate := strField badge "issued_at_date" }

/-- extract_badges of src/fetch_credly_badges.py: iterate
badges_json.get("data", []). -/
def extractBadges (badgesJson : Json) : List BadgeRec :=
  (arrField badgesJson "data").map badgeRecOf

/-! ### The reconciler (src/passed_exams.py, merge_exam_data) -/

/-- The dedup key used for records of the first (Microsoft Learn) loop of
merge_exam_data: (Exam Number, Exam Date). -/
def msKey (r : ExamRec) : String × String := (r.examNumber, r.examDate)

/-- The dedup key used for records of the second (Credly) loop of
merge_exam_data: (Exam Title, Exam Date) when the exam number carries the
Badge: fallback prefix, else (Exam Number, Exam Date). -/
def credlyKey (r : ExamRec) : String × String :=
  if pyStarts r.examNumber "Badge:" then (r.examTitle, r.examDate)
  else (r.examNumber, r.examDate)

/-- One dedup loop of merge_exam_data: keep a record whose key is unseen and
mark the key seen; drop a record whose key was seen.  The seen set is
modelled as a list queried by membership. -/
def dedupStep (keyOf : ExamRec → String × String) :
    List ExamRec → List (String × String) → List ExamRec
  | [], _ => []
  | r :: rest, seen =>
      if keyOf r ∈ seen then dedupStep keyOf rest seen
      else r :: dedupStep keyOf rest (keyOf r :: seen)

/-- The seen set left behind by one dedup loop of merge_exam_data. -/
def seenStep (keyOf : ExamRec → String × String) :
    List ExamRec → List (String × String) → List (String × String)
  | [], seen => seen
  | r :: rest, seen =>
      if keyOf r ∈ seen then seenStep keyOf rest seen
      else seenStep keyOf rest (keyOf r :: seen)

/-- Lexicographic less-or-equal on character lists by code point: how Python
compares the strings handed to list.sort by the key function. -/
def lexLe : List Char → List Char → Bool
  | [], _ => true
  | _ :: _, [] => false
  | a :: as, b :: bs => if a < b then true else if b < a then false else lexLe as bs

/-- The comparator of merged.sort(key=lambda x: x["Exam Date"]). -/
def dateLeB (a b : ExamRec) : Bool := lexLe a.examDate.data b.examDate.data

/-- The sort relation of merge_exam_data as a proposition. -/
def dateRel (a b : ExamRec) : Prop := dateLeB a b = true

instance : DecidableRel dateRel := fun a b => Bool.decEq (dateLeB a b) true

instance : IsTotal ExamRec dateRel := by
  constructor
  intro a b
  suffices h : ∀ x y : List Char, lexLe x y = true ∨ lexLe y x = true by
    exact h a.examDate.data b.examDate.data
  intro x
  induction x with
  | nil => intro y; left; rfl
  | cons a as ih =>
    intro y
    cases y with
    | nil => right; rfl
    | cons b bs =>
      rcases lt_trichotomy a b with hab | hab | hab
      · left; simp [lexLe, hab]
      · subst hab
        rcases ih bs with h | h
        · left; simp [lexLe, lt_irrefl, h]
        · right; simp [lexLe, lt_irrefl, h]
      · right; simp [lexLe, hab]

instance : IsTrans ExamRec dateRel := by
  constructor
  intro a b c hab hbc
  unfold dateRel dateLeB at *
  revert hab hbc
  generalize a.examDate.data = x
  generalize b.examDate.data = y
  generalize c.examDate.data = z
  intro hab hbc
  induction x generalizing y z with
  | nil => rfl
  | cons a1 as ih =>
    cases y with
    | nil => simp [lexLe] at hab
    | cons b1 bs =>
      cases z with
      | nil => simp [lexLe] at hbc
      | cons c1 cs =>
        simp only [lexLe] at hab hbc ⊢
        by_cases h1 : a1 < b1
        · by_cases h2 : b1 < c1
          · simp [lt_trans h1 h2]
          · by_cases h3 : c1 < b1
            · simp [h2, h3] at hbc
            · have : b1 = c1 := le_antisymm (not_lt.mp h3) (not_lt.mp h2)
              subst this
              simp [h1]
        · by_cases h1a : b1 < a1
          · simp [h1, h1a] at hab
          · have hab1 : a1 = b1 := le_antisymm (not_lt.mp h1a) (not_lt.mp h1)
            subst hab1
            simp only [if_neg h1, if_neg h1a] at hab ⊢
            by_cases h2 : a1 < c1
            · simp [h2]
            · by_cases h3 : c1 < a1
              · simp [h2, h3] at hbc
              · simp only [if_neg h2, if_neg h3] at hbc ⊢
                exact ih bs cs hab hbc

/-- The merged list of merge_exam_data before its final sort: the surviving
Microsoft Learn records in input order, then the surviving Credly records in
input order, sharing one seen set. -/
def preMerge (msExams credlyExams : List ExamRec) : List ExamRec :=
  dedupStep msKey msExams [] ++
    dedupStep credlyKey credlyExams (seenStep msKey msExams [])

/-- merge_exam_data of src/passed_exams.py: dedup both sources in priority
order, then sort stably by "Exam Date" (Python list.sort is stable; its
effect on the comparator dateRel is that of a stable insertion sort). -/
def mergeExamData (msExams credlyExams : List ExamRec) : List ExamRec :=
  List.insertionSort dateRel (preMerge msExams credlyExams)

/-! ### The combined pipeline (src/passed_exams.py, main) -/

/-- Outcome of one run of main: the process exit code and the record list
written to the CSV file, if any. -/
structure RunResult where
  exitCode : Nat
  written : Option (List ExamRec)
deriving DecidableEq

/-- fetch_credly_badges of src/passed_exams.py: on success hand back
data.get("data", []); any fetch or decode failure is caught, logged as a
warning, and turned into the empty badge list. -/
def fetchCredlyBadgesModel (resp : Except Unit (List Json)) : List Json :=
  match resp with
  | Except.ok badges => badges
  | Except.error _ => []

/-- The credly_exams value computed by main: empty without a --credly-user;
otherwise extract from the fetched badges when any were returned. -/
def credlyExamsOf (credlyUser : Bool) (resp : Except Unit (List Json)) :
    List ExamRec :=
  if credlyUser then
    let badges := fetchCredlyBadgesModel resp
    if badges.isEmpty then [] else extractCredlyExams badges
  else []

/-- main of src/passed_exams.py over the fetch outcomes: a failed primary
fetch (or transcript decode) returns exit code 1 with nothing written; an
empty merged list returns exit code 1 with nothing written; otherwise the
merged list is written and the exit code is 0. -/
def mainModel (msResp : Except Unit Json) (credlyUser : Bool)
    (credlyResp : Except Unit (List Json)) : RunResult :=
  match msResp with
  | Except.error _ => { exitCode := 1, written := none }
  | Except.ok doc =>
      let allExams :=
        mergeExamData (extractMicrosoftExams doc) (credlyExamsOf credlyUser credlyResp)
      if allExams = [] then { exitCode := 1, written := none }
      else { exitCode := 0, written := some allExams }

/-! ### Concrete inputs used by witnesses and counterexamples -/

/-- A Credly badge entry as consumed by extract_credly_exams, with the given
template name, template slug and issue date. -/
def mkBadge (name slug issued : String) : Json :=
  Json.obj
    [("badge_template", Json.obj
        [("name", Json.str name),
         ("badge_template_earnable_id", Json.str slug)]),
     ("issued_at_date", Json.str issued)]

def c1rm : ExamRec := ⟨"Exam AZ-900: Azure Fundamentals", "AZ-900", "2023-05-01", "Microsoft Learn"⟩

def c1rc : ExamRec := ⟨"Azure Fundamentals badge", "AZ-900", "2023-05-01", "Credly"⟩

def c3good : List ExamRec :=
  [⟨"Exam One", "AZ-900", "2023-01-01", "Microsoft Learn"⟩,
   ⟨"Exam Two", "AZ-104", "2024-01-01", "Microsoft Learn"⟩]

def c3bad : ExamRec := ⟨"Copilot Badge", "Badge: gh", "2024-01-01", "Credly"⟩

def c3unsorted : List ExamRec :=
  [⟨"Late", "AZ-104", "2024-02-02", "Microsoft Learn"⟩,
   ⟨"Early", "AZ-900", "2023-01-01", "Microsoft Learn"⟩]

def c3dup : ExamRec := ⟨"Twice", "AZ-900", "2024-01-01", "Microsoft Learn"⟩

def c4badge : Json :=
  Json.obj [("issuer", Json.obj [("entities", Json.arr [])])]

def c4wbadge : Json :=
  Json.obj
    [("badge_template", Json.obj [("name", Json.str "Some Badge")]),
     ("issuer", Json.obj [("entities", Json.arr [])]),
     ("issued_at_date", Json.str "2022-03-04")]

def c5doc : Json := Json.obj [("passedExams", Json.arr [Json.obj []])]

def c5wdoc : Json :=
  Json.obj [("passedExams", Json.arr [Json.obj [("examTitle", Json.str "T")]])]

def c6badge : Json := mkBadge "Badge" "slug" "2023-01-01"

def c6doc : Json :=
  Json.obj [("wrapper", Json.obj [("data", Json.arr [c6badge])])]

def c6wentry : Json := Json.obj [("examTitle", Json.str "Nested exam")]

def c6wdoc : Json :=
  Json.obj [("unrelated", Json.str "noise"),
            ("wrap", Json.obj [("PassedExams", Json.arr [c6wentry])])]

def c8badge : Json := mkBadge "Some Microsoft Badge" "unmapped-slug" "2023-05-01T08:00:00Z"

def c8wbadge : Json := mkBadge "Another Microsoft Badge" "another-unmapped-slug" "2021-01-02"

def c9doc : Json := Json.obj [("passedExams", Json.arr [Json.obj [("examNumber", Json.str "AZ-900")]])]

def c10r : ExamRec := ⟨"Self Badge", "Badge: dup", "2024-01-01", "Microsoft Learn"⟩

def c10ms : List ExamRec :=
  [⟨"Exam B", "AZ-104", "2024-01-02", "Microsoft Learn"⟩,
   ⟨"Exam A", "AZ-900", "2024-01-01", "Microsoft Learn"⟩]

/-! ### Helper lemmas: the comparator -/

theorem lexLe_refl (x : List Char) : lexLe x x = true := by
  induction x with
  | nil => rfl
  | cons a as ih => simp [lexLe, lt_irrefl, ih]

theorem lexLe_nil_right {x : List Char} (h : lexLe x [] = true) : x = [] := by
  cases x with
  | nil => rfl
  | cons a as => simp [lexLe] at h

theorem dateRel_of_eq_date {a b : ExamRec} (h : a.examDate = b.examDate) :
    dateRel a b := by
  unfold dateRel dateLeB
  rw [h]
  exact lexLe_refl _

theorem str_eq_empty_of_data {s : String} (h : s.data = []) : s = "" := by
  cases s with
  | mk d => cases h; rfl

/-! ### Helper lemmas: the dedup loops -/

theorem dedupStep_sublist (keyOf : ExamRec → String × String)
    (l : List ExamRec) (seen : List (String × String)) :
    dedupStep keyOf l seen <+ l := by
  induction l generalizing seen with
  | nil => exact List.Sublist.refl []
  | cons a rest ih =>
    by_cases hs : keyOf a ∈ seen
    · simp only [dedupStep, if_pos hs]
      exact (ih seen).cons a
    · simp only [dedupStep, if_neg hs]
      exact (ih (keyOf a :: seen)).cons₂ a

theorem mem_dedupStep_not_seen (keyOf : ExamRec → String × String)
    {l : List ExamRec} {seen : List (String × String)} {r : ExamRec}
    (h : r ∈ dedupStep keyOf l seen) : keyOf r ∉ seen := by
  induction l generalizing seen with
  | nil => simp [dedupStep] at h
  | cons a rest ih =>
    by_cases hs : keyOf a ∈ seen
    · rw [dedupStep, if_pos hs] at h
      exact ih h
    · rw [dedupStep, if_neg hs] at h
      rcases List.mem_cons.mp h with rfl | h2
      · exact hs
      · intro hmem
        exact ih h2 (List.mem_cons_of_mem _ hmem)

theorem dedupStep_pairwise (keyOf : ExamRec → String × String)
    (l : List ExamRec) (seen : List (String × String)) :
    (dedupStep keyOf l seen).Pairwise (fun a b => keyOf a ≠ keyOf b) := by
  induction l generalizing seen with
  | nil => exact List.Pairwise.nil
  | cons a rest ih =>
    by_cases hs : keyOf a ∈ seen
    · rw [dedupStep, if_pos hs]
      exact ih seen
    · rw [dedupStep, if_neg hs]
      refine List.Pairwise.cons ?_ (ih (keyOf a :: seen))
      intro b hb heq
      exact (mem_dedupStep_not_seen keyOf hb) (heq ▸ List.mem_cons_self _ _)

theorem mem_seenStep (keyOf : ExamRec → String × String)
    (l : List ExamRec) (seen : List (String × String)) (x : String × String) :
    x ∈ seenStep keyOf l seen ↔ x ∈ seen ∨ ∃ r, r ∈ l ∧ keyOf r = x := by
  induction l generalizing seen with
  | nil => simp [seenStep]
  | cons a rest ih =>
    by_cases hs : keyOf a ∈ seen
    · rw [seenStep, if_pos hs, ih]
      constructor
      · rintro (h | ⟨r, hr, hk⟩)
        · exact Or.inl h
        · exact Or.inr ⟨r, List.mem_cons_of_mem _ hr, hk⟩
      · rintro (h | ⟨r, hr, hk⟩)
        · exact Or.inl h
        · rcases List.mem_cons.mp hr with rfl | hr2
          · exact Or.inl (hk ▸ hs)
          · exact Or.inr ⟨r, hr2, hk⟩
    · rw [seenStep, if_neg hs, ih]
      constructor
      · rintro (h | ⟨r, hr, hk⟩)
        · rcases List.mem_cons.mp h with rfl | h2
          · exact Or.inr ⟨a, List.mem_cons_self _ _, rfl⟩
          · exact Or.inl h2
        · exact Or.inr ⟨r, List.mem_cons_of_mem _ hr, hk⟩
      · rintro (h | ⟨r, hr, hk⟩)
        · exact Or.inl (List.mem_cons_of_mem _ h)
        · rcases List.mem_cons.mp hr with rfl | hr2
          · exact Or.inl (hk ▸ List.mem_cons_self _ _)
          · exact Or.inr ⟨r, hr2, hk⟩

theorem dedupStep_all_seen (keyOf : ExamRec → String × String)
    {l : List ExamRec} {seen : List (String × String)}
    (h : ∀ r ∈ l, keyOf r ∈ seen) : dedupStep keyOf l seen = [] := by
  induction l with
  | nil => rfl
  | cons a rest ih =>
    rw [dedupStep, if_pos (h a (List.mem_cons_self _ _))]
    exact ih fun r hr => h r (List.mem_cons_of_mem _ hr)

theorem dedupStep_eq_self (keyOf : ExamRec → String × String)
    {l : List ExamRec} (hnd : l.Pairwise (fun a b => keyOf a ≠ keyOf b))
    {seen : List (String × String)} (h : ∀ r ∈ l, keyOf r ∉ seen) :
    dedupStep keyOf l seen = l := by
  induction l generalizing seen with
  | nil => rfl
  | cons a rest ih =>
    rw [dedupStep, if_neg (h a (List.mem_cons_self _ _))]
    congr 1
    refine ih (List.Pairwise.of_cons hnd) ?_
    intro r hr hmem
    rcases List.mem_cons.mp hmem with heq | hmem2
    · exact (List.pairwise_cons.mp hnd).1 r hr heq.symm
    · exact h r (List.mem_cons_of_mem _ hr) hmem2

theorem dedupStep_exists_key (keyOf : ExamRec → String × String)
    (l : List ExamRec) :
    ∀ (seen : List (String × String)) (r : ExamRec), r ∈ l → keyOf r ∉ seen →
      ∃ t, t ∈ dedupStep keyOf l seen ∧ keyOf t = keyOf r := by
  induction l with
  | nil =>
    intro seen r hr _
    simp at hr
  | cons a rest ih =>
    intro seen r hr hs
    by_cases ha : keyOf a ∈ seen
    · rw [dedupStep, if_pos ha]
      rcases List.mem_cons.mp hr with rfl | hr2
      · exact absurd ha hs
      · exact ih seen r hr2 hs
    · rw [dedupStep, if_neg ha]
      rcases List.mem_cons.mp hr with rfl | hr2
      · exact ⟨r, List.mem_cons_self _ _, rfl⟩
      · by_cases heq : keyOf r = keyOf a
        · exact ⟨a, List.mem_cons_self _ _, heq.symm⟩
        · have hs2 : keyOf r ∉ keyOf a :: seen := by
            intro hmem
            rcases List.mem_cons.mp hmem with h2 | h2
            · exact heq h2
            · exact hs h2
          rcases ih (keyOf a :: seen) r hr2 hs2 with ⟨t, ht, hk⟩
          exact ⟨t, List.mem_cons_of_mem _ ht, hk⟩

/-! ### Helper lemmas: the sort -/

theorem mergeExamData_perm (msExams credlyExams : List ExamRec) :
    mergeExamData msExams credlyExams ~ preMerge msExams credlyExams :=
  List.perm_insertionSort dateRel _

theorem mergeExamData_sorted (msExams credlyExams : List ExamRec) :
    (mergeExamData msExams credlyExams).Pairwise dateRel :=
  List.sorted_insertionSort dateRel _

theorem insertionSort_filter_date (l : List ExamRec) (d : String) :
    (List.insertionSort dateRel l).filter (fun r => decide (r.examDate = d)) =
      l.filter (fun r => decide (r.examDate = d)) := by
  have hsub0 : l.filter (fun r => decide (r.examDate = d)) <+ l := List.filter_sublist l
  have hpw : (l.filter (fun r => decide (r.examDate = d))).Pairwise dateRel := by
    apply List.pairwise_of_forall_mem_list
    intro a ha b hb
    have hda : a.examDate = d := of_decide_eq_true (List.mem_filter.mp ha).2
    have hdb : b.examDate = d := of_decide_eq_true (List.mem_filter.mp hb).2
    exact dateRel_of_eq_date (hda.trans hdb.symm)
  have hstab := List.sublist_insertionSort hpw hsub0
  have h2 : l.filter (fun r => decide (r.examDate = d)) <+
      (List.insertionSort dateRel l).filter (fun r => decide (r.examDate = d)) := by
    have h3 := hstab.filter (fun r => decide (r.examDate = d))
    rwa [List.filter_eq_self.mpr (fun a ha => (List.mem_filter.mp ha).2)] at h3
  have hlen : ((List.insertionSort dateRel l).filter
        (fun r => decide (r.examDate = d))).length =
      (l.filter (fun r => decide (r.examDate = d))).length :=
    ((List.perm_insertionSort dateRel l).filter _).length_eq
  exact (h2.eq_of_length hlen.symm).symm

/-! ### Helper lemmas: the recursive transcript search -/

theorem findPE_sound : ∀ (j : Json), findPE j ≠ [] → Occurs j (findPE j) := by
  intro j
  induction j using findPE.induct
  case case1 k l rest hk =>
    intro _
    have hres : findPE (Json.obj ((k, Json.arr l) :: rest)) = l := by
      simp only [findPE, if_pos hk]
    rw [hres]
    exact Occurs.head k l rest hk
  case case2 k l rest hk f hemp iharr ihrest =>
    have hemp2 : findPE (Json.arr l) = [] := List.isEmpty_iff.mp hemp
    have hres : findPE (Json.obj ((k, Json.arr l) :: rest)) = findPE (Json.obj rest) := by
      simp only [findPE, if_neg hk, hemp2, List.isEmpty_nil, if_true]
    rw [hres]
    intro hne
    exact Occurs.objRest _ _ _ (ihrest hne)
  case case3 k l rest hk f hemp iharr =>
    have hne2 : findPE (Json.arr l) ≠ [] := fun h => hemp (List.isEmpty_iff.mpr h)
    have hres : findPE (Json.obj ((k, Json.arr l) :: rest)) = findPE (Json.arr l) := by
      simp only [findPE, if_neg hk,
        if_neg (fun hc => hne2 (List.isEmpty_iff.mp hc))]
    rw [hres]
    intro _
    exact Occurs.objVal k _ rest _ (iharr hne2)
  case case4 k kvs rest f hemp ihkvs ihrest =>
    have hemp2 : findPE (Json.obj kvs) = [] := List.isEmpty_iff.mp hemp
    have hres : findPE (Json.obj ((k, Json.obj kvs) :: rest)) = findPE (Json.obj rest) := by
      simp only [findPE, hemp2, List.isEmpty_nil, if_true]
    rw [hres]
    intro hne
    exact Occurs.objRest _ _ _ (ihrest hne)
  case case5 k kvs rest f hemp ihkvs =>
    have hne2 : findPE (Json.obj kvs) ≠ [] := fun h => hemp (List.isEmpty_iff.mpr h)
    have hres : findPE (Json.obj ((k, Json.obj kvs) :: rest)) = findPE (Json.obj kvs) := by
      simp only [findPE, if_neg (fun hc => hne2 (List.isEmpty_iff.mp hc))]
    rw [hres]
    intro _
    exact Occurs.objVal k _ rest _ (ihkvs hne2)
  case case6 k rest ihrest =>
    have hres : findPE (Json.obj ((k, Json.null) :: rest)) = findPE (Json.obj rest) := by
      simp only [findPE]
    rw [hres]
    intro hne
    exact Occurs.objRest _ _ _ (ihrest hne)
  case case7 k b rest ihrest =>
    have hres : findPE (Json.obj ((k, Json.bool b) :: rest)) = findPE (Json.obj rest) := by
      simp only [findPE]
    rw [hres]
    intro hne
    exact Occurs.objRest _ _ _ (ihrest hne)
  case case8 k s rest ihrest =>
    have hres : findPE (Json.obj ((k, Json.str s) :: rest)) = findPE (Json.obj rest) := by
      simp only [findPE]
    rw [hres]
    intro hne
    exact Occurs.objRest _ _ _ (ihrest hne)
  case case9 x rest f hemp ihx ihrest =>
    have hemp2 : findPE x = [] := List.isEmpty_iff.mp hemp
    have hres : findPE (Json.arr (x :: rest)) = findPE (Json.arr rest) := by
      simp only [findPE, hemp2, List.isEmpty_nil, if_true]
    rw [hres]
    intro hne
    exact Occurs.arrRest _ _ _ (ihrest hne)
  case case10 x rest f hemp ihx =>
    have hne2 : findPE x ≠ [] := fun h => hemp (List.isEmpty_iff.mpr h)
    have hres : findPE (Json.arr (x :: rest)) = findPE x := by
      simp only [findPE, if_neg (fun hc => hne2 (List.isEmpty_iff.mp hc))]
    rw [hres]
    intro _
    exact Occurs.arrHead _ _ _ (ihx hne2)
  case case11 =>
    intro hne
    exact absurd (by simp only [findPE]) hne
  case case12 =>
    intro hne
    exact absurd (by simp only [findPE]) hne
  case case13 =>
    intro hne
    exact absurd (by simp only [findPE]) hne
  case case14 b =>
    intro hne
    exact absurd (by simp only [findPE]) hne
  case case15 s =>
    intro hne
    exact absurd (by simp only [findPE]) hne

theorem findPE_complete : ∀ (j : Json) (l : List Json), Occurs j l → l ≠ [] →
    (∀ l2, Occurs j l2 → l2 = l) → findPE j = l := by
  intro j
  induction j using findPE.induct
  case case1 k l0 rest hk =>
    intro l _ _ huniq
    have hres : findPE (Json.obj ((k, Json.arr l0) :: rest)) = l0 := by
      simp only [findPE, if_pos hk]
    rw [hres]
    exact huniq l0 (Occurs.head k l0 rest hk)
  case case2 k l0 rest hk f hemp iharr ihrest =>
    have hemp2 : findPE (Json.arr l0) = [] := List.isEmpty_iff.mp hemp
    have hres : findPE (Json.obj ((k, Json.arr l0) :: rest)) = findPE (Json.obj rest) := by
      simp only [findPE, if_neg hk, hemp2, List.isEmpty_nil, if_true]
    intro l hocc hne huniq
    rw [hres]
    cases hocc with
    | head _ _ _ hk2 => exact absurd hk2 hk
    | objVal _ _ _ _ hv =>
        have h3 := iharr l hv hne
          (fun l2 h2 => huniq l2 (Occurs.objVal k _ rest l2 h2))
        rw [hemp2] at h3
        exact absurd h3.symm hne
    | objRest _ _ _ hr =>
        exact ihrest l hr hne (fun l2 h2 => huniq l2 (Occurs.objRest _ _ _ h2))
  case case3 k l0 rest hk f hemp iharr =>
    have hne2 : findPE (Json.arr l0) ≠ [] := fun h => hemp (List.isEmpty_iff.mpr h)
    have hres : findPE (Json.obj ((k, Json.arr l0) :: rest)) = findPE (Json.arr l0) := by
      simp only [findPE, if_neg hk,
        if_neg (fun hc => hne2 (List.isEmpty_iff.mp hc))]
    intro l _ _ huniq
    rw [hres]
    exact huniq _ (Occurs.objVal k _ rest _ (findPE_sound _ hne2))
  case case4 k kvs rest f hemp ihkvs ihrest =>
    have hemp2 : findPE (Json.obj kvs) = [] := List.isEmpty_iff.mp hemp
    have hres : findPE (Json.obj ((k, Json.obj kvs) :: rest)) = findPE (Json.obj rest) := by
      simp only [findPE, hemp2, List.isEmpty_nil, if_true]
    intro l hocc hne huniq
    rw [hres]
    cases hocc with
    | objVal _ _ _ _ hv =>
        have h3 := ihkvs l hv hne
          (fun l2 h2 => huniq l2 (Occurs.objVal k _ rest l2 h2))
        rw [hemp2] at h3
        exact absurd h3.symm hne
    | objRest _ _ _ hr =>
        exact ihrest l hr hne (fun l2 h2 => huniq l2 (Occurs.objRest _ _ _ h2))
  case case5 k kvs rest f hemp ihkvs =>
    have hne2 : findPE (Json.obj kvs) ≠ [] := fun h => hemp (List.isEmpty_iff.mpr h)
    have hres : findPE (Json.obj ((k, Json.obj kvs) :: rest)) = findPE (Json.obj kvs) := by
      simp only [findPE, if_neg (fun hc => hne2 (List.isEmpty_iff.mp hc))]
    intro l _ _ huniq
    rw [hres]
    exact huniq _ (Occurs.objVal k _ rest _ (findPE_sound _ hne2))
  case case6 k rest ihrest =>
    intro l hocc hne huniq
    have hres : findPE (Json.obj ((k, Json.null) :: rest)) = findPE (Json.obj rest) := by
      simp only [findPE]
    rw [hres]
    cases hocc with
    | objVal _ _ _ _ hv => cases hv
    | objRest _ _ _ hr =>
        exact ihrest l hr hne (fun l2 h2 => huniq l2 (Occurs.objRest _ _ _ h2))
  case case7 k b rest ihrest =>
    intro l hocc hne huniq
    have hres : findPE (Json.obj ((k, Json.bool b) :: rest)) = findPE (Json.obj rest) := by
      simp only [findPE]
    rw [hres]
    cases hocc with
    | objVal _ _ _ _ hv => cases hv
    | objRest _ _ _ hr =>
        exact ihrest l hr hne (fun l2 h2 => huniq l2 (Occurs.objRest _ _ _ h2))
  case case8 k s rest ihrest =>
    intro l hocc hne huniq
    have hres : findPE (Json.obj ((k, Json.str s) :: rest)) = findPE (Json.obj rest) := by
      simp only [findPE]
    rw [hres]
    cases hocc with
    | objVal _ _ _ _ hv => cases hv
    | objRest _ _ _ hr =>
        exact ihrest l hr hne (fun l2 h2 => huniq l2 (Occurs.objRest _ _ _ h2))
  case case9 x rest f hemp ihx ihrest =>
    have hemp2 : findPE x = [] := List.isEmpty_iff.mp hemp
    have hres : findPE (Json.arr (x :: rest)) = findPE (Json.arr rest) := by
      simp only [findPE, hemp2, List.isEmpty_nil, if_true]
    intro l hocc hne huniq
    rw [hres]
    cases hocc with
    | arrHead _ _ _ hv =>
        have h3 := ihx l hv hne
          (fun l2 h2 => huniq l2 (Occurs.arrHead _ _ l2 h2))
        rw [hemp2] at h3
        exact absurd h3.symm hne
    | arrRest _ _ _ hr =>
        exact ihrest l hr hne (fun l2 h2 => huniq l2 (Occurs.arrRest _ _ _ h2))
  case case10 x rest f hemp ihx =>
    have hne2 : findPE x ≠ [] := fun h => hemp (List.isEmpty_iff.mpr h)
    have hres : findPE (Json.arr (x :: rest)) = findPE x := by
      simp only [findPE, if_neg (fun hc => hne2 (List.isEmpty_iff.mp hc))]
    intro l _ _ huniq
    rw [hres]
    exact huniq _ (Occurs.arrHead _ _ _ (findPE_sound _ hne2))
  case case11 =>
    intro l hocc _ _
    cases hocc
  case case12 =>
    intro l hocc _ _
    cases hocc
  case case13 =>
    intro l hocc _ _
    cases hocc
  case case14 b =>
    intro l hocc _ _
    cases hocc
  case case15 s =>
    intro l hocc _ _
    cases hocc

/-! ### Helper lemmas: merge-level facts -/

theorem credlyKey_eq_msKey {r : ExamRec}
    (h : pyStarts r.examNumber "Badge:" = false) : credlyKey r = msKey r := by
  unfold credlyKey msKey
  rw [h]
  rfl

theorem mem_preMerge {msExams credlyExams : List ExamRec} {r : ExamRec}
    (h : r ∈ preMerge msExams credlyExams) : r ∈ msExams ∨ r ∈ credlyExams := by
  rcases List.mem_append.mp h with h1 | h2
  · exact Or.inl ((dedupStep_sublist msKey msExams []).subset h1)
  · exact Or.inr ((dedupStep_sublist credlyKey credlyExams _).subset h2)

theorem filter_key_len_one (keyOf : ExamRec → String × String)
    {l : List ExamRec} (hpw : l.Pairwise (fun a b => keyOf a ≠ keyOf b))
    {k : String × String} {t : ExamRec} (ht : t ∈ l) (htk : keyOf t = k) :
    (l.filter (fun r => decide (keyOf r = k))).length = 1 := by
  induction l with
  | nil => simp at ht
  | cons a rest ih =>
    by_cases hk : keyOf a = k
    · rw [List.filter_cons_of_pos (by simpa using hk)]
      have hrest : rest.filter (fun r => decide (keyOf r = k)) = [] := by
        apply List.filter_eq_nil_iff.mpr
        intro b hb
        have hne : keyOf a ≠ keyOf b := (List.pairwise_cons.mp hpw).1 b hb
        simp only [decide_eq_true_eq]
        intro hbk
        exact hne (hk.trans hbk.symm)
      simp [hrest]
    · rw [List.filter_cons_of_neg (by simpa using hk)]
      rcases List.mem_cons.mp ht with rfl | ht2
      · exact absurd htk hk
      · exact ih (List.pairwise_cons.mp hpw).2 ht2

theorem find?_append_first {p : String × String}
    {l1 l2 : List (String × String)} (pred : String × String → Bool)
    (hnone : ∀ x ∈ l1, pred x = false) (hp : pred p = true) :
    (l1 ++ p :: l2).find? pred = some p := by
  induction l1 with
  | nil => simp [List.find?_cons_of_pos _ hp]
  | cons a rest ih =>
    have ha : pred a = false := hnone a (List.mem_cons_self _ _)
    rw [List.cons_append, List.find?_cons_of_neg _ (by simp [ha])]
    exact ih fun x hx => hnone x (List.mem_cons_of_mem _ hx)

/-! ### Claim theorems -/

/-- C1: priority property of the reconciler.  When the Microsoft Learn list
and the Credly list each contain a record with the same dedup key (the
primary list carrying no fallback-tagged codes, as the Microsoft Learn
extractor produces) but different titles, the output of merge_exam_data
contains exactly one record for that key, and every output record with that
key is one of the primary records; the secondary record is discarded. -/
theorem c1_merge_priority (msExams credlyExams : List ExamRec) (rm rc : ExamRec)
    (hm : rm ∈ msExams) (hc : rc ∈ credlyExams)
    (hclean : ∀ r ∈ msExams, pyStarts r.examNumber "Badge:" = false)
    (hkey : credlyKey rc = msKey rm)
    (htitle : rc.examTitle ≠ rm.examTitle) :
    ((mergeExamData msExams credlyExams).filter
        (fun r => decide (credlyKey r = msKey rm))).length = 1 ∧
    ∀ r ∈ mergeExamData msExams credlyExams,
      credlyKey r = msKey rm → r ∈ msExams := by
  have hp1ms : ∀ r ∈ dedupStep msKey msExams [], r ∈ msExams :=
    fun r hr => (dedupStep_sublist msKey msExams []).subset hr
  have hfcongr : (dedupStep msKey msExams []).filter
        (fun r => decide (credlyKey r = msKey rm)) =
      (dedupStep msKey msExams []).filter
        (fun r => decide (msKey r = msKey rm)) := by
    apply List.filter_congr
    intro r hr
    rw [credlyKey_eq_msKey (hclean r (hp1ms r hr))]
  obtain ⟨t, ht, htk⟩ :=
    dedupStep_exists_key msKey msExams [] rm hm (List.not_mem_nil _)
  have hlen1 : ((dedupStep msKey msExams []).filter
        (fun r => decide (msKey r = msKey rm))).length = 1 :=
    filter_key_len_one msKey (dedupStep_pairwise msKey msExams []) ht htk
  have hkinseen : msKey rm ∈ seenStep msKey msExams [] :=
    (mem_seenStep msKey msExams [] _).mpr (Or.inr ⟨rm, hm, rfl⟩)
  have hp2 : ∀ r ∈ dedupStep credlyKey credlyExams (seenStep msKey msExams []),
      ¬ (credlyKey r = msKey rm) :=
    fun r hr heq => (mem_dedupStep_not_seen credlyKey hr) (heq ▸ hkinseen)
  have hfilter2 : (dedupStep credlyKey credlyExams
        (seenStep msKey msExams [])).filter
        (fun r => decide (credlyKey r = msKey rm)) = [] :=
    List.filter_eq_nil_iff.mpr (fun b hb => by simpa using hp2 b hb)
  have hpre : ((preMerge msExams credlyExams).filter
        (fun r => decide (credlyKey r = msKey rm))).length = 1 := by
    unfold preMerge
    rw [List.filter_append, hfilter2, List.append_nil, hfcongr]
    exact hlen1
  constructor
  · rw [((mergeExamData_perm msExams credlyExams).filter
      (fun r => decide (credlyKey r = msKey rm))).length_eq]
    exact hpre
  · intro r hrmem heq
    have hrpre : r ∈ preMerge msExams credlyExams :=
      (mergeExamData_perm msExams credlyExams).mem_iff.mp hrmem
    rcases List.mem_append.mp hrpre with h1 | h2
    · exact hp1ms r h1
    · exact absurd heq (hp2 r h2)

/-- C1 witness: the priority theorem applied to one-record lists that share
the key (AZ-900, 2023-05-01) with different titles. -/
theorem c1_merge_priority_witness :
    ((mergeExamData [c1rm] [c1rc]).filter
        (fun r => decide (credlyKey r = msKey c1rm))).length = 1 :=
  (c1_merge_priority [c1rm] [c1rc] c1rm c1rc (by decide) (by decide)
    (by decide) (by decide) (by decide)).1

/-- C2: sort property of the reconciler.  The output of merge_exam_data is
non-decreasing in the "Exam Date" field under lexicographic code-point
comparison; an empty date never follows a non-empty one; for every date the
records carrying it appear exactly as in the post-dedup pre-sort list
(surviving primary records in input order, then surviving secondary records
in input order, each a sublist of its input). -/
theorem c2_merge_sort (msExams credlyExams : List ExamRec) :
    (mergeExamData msExams credlyExams).Pairwise dateRel ∧
    (mergeExamData msExams credlyExams).Pairwise
      (fun a b => b.examDate = "" → a.examDate = "") ∧
    (∀ d, (mergeExamData msExams credlyExams).filter
        (fun r => decide (r.examDate = d)) =
      (preMerge msExams credlyExams).filter
        (fun r => decide (r.examDate = d))) ∧
    List.Sublist (dedupStep msKey msExams []) msExams ∧
    List.Sublist
      (dedupStep credlyKey credlyExams (seenStep msKey msExams []))
      credlyExams := by
  refine ⟨mergeExamData_sorted _ _, ?_,
    fun d => insertionSort_filter_date _ d,
    dedupStep_sublist _ _ _, dedupStep_sublist _ _ _⟩
  refine List.Pairwise.imp ?_ (mergeExamData_sorted msExams credlyExams)
  intro a b h hb
  unfold dateRel dateLeB at h
  rw [hb] at h
  have hnil : ("" : String).data = [] := rfl
  rw [hnil] at h
  exact str_eq_empty_of_data (lexLe_nil_right h)

/-- C3 counterexample: merging a list with itself is not the identity in
general.  A fallback-tagged record is admitted twice (its two passes use
different keys); an unsorted list is reordered; an internally duplicated
list is shrunk. -/
theorem c3_counterexample :
    mergeExamData [c3bad] [c3bad] ≠ [c3bad] ∧
    mergeExamData c3unsorted c3unsorted ≠ c3unsorted ∧
    mergeExamData [c3dup, c3dup] [c3dup, c3dup] ≠ [c3dup, c3dup] := by
  decide

/-- C3 (amended): merging a list with itself yields exactly that list,
provided no record carries the Badge: fallback prefix in its code, the
(code, date) keys are pairwise distinct, and the list is already sorted by
date. -/
theorem c3_merge_self (l : List ExamRec)
    (hclean : ∀ r ∈ l, pyStarts r.examNumber "Badge:" = false)
    (hnd : l.Pairwise (fun a b => msKey a ≠ msKey b))
    (hsort : l.Pairwise dateRel) :
    mergeExamData l l = l := by
  have h1 : dedupStep msKey l [] = l :=
    dedupStep_eq_self msKey hnd (fun r _ => List.not_mem_nil _)
  have h2 : dedupStep credlyKey l (seenStep msKey l []) = [] := by
    apply dedupStep_all_seen
    intro r hr
    rw [credlyKey_eq_msKey (hclean r hr)]
    exact (mem_seenStep msKey l [] _).mpr (Or.inr ⟨r, hr, rfl⟩)
  unfold mergeExamData preMerge
  rw [h1, h2, List.append_nil]
  exact List.Sorted.insertionSort_eq hsort

/-- C3 witness: self-merge of a clean, duplicate-free, date-sorted
two-record list gives the list back. -/
theorem c3_merge_self_witness : mergeExamData c3good c3good = c3good :=
  c3_merge_self c3good (by decide) (by decide) (by decide)

/-- C10 counterexample: a record whose code carries the Badge: prefix is
kept by both passes when it sits in both inputs, so the output holds two
copies from the primary list with the same (code, date) pair. -/
theorem c10_counterexample :
    mergeExamData [c10r] [c10r] = [c10r, c10r] ∧
    c10r ∈ ([c10r] : List ExamRec) ∧
    ¬ (mergeExamData [c10r] [c10r]).Pairwise
        (fun a b => msKey a ≠ msKey b) := by
  refine ⟨by decide, by decide, ?_⟩
  intro hpw
  have := (List.pairwise_cons.mp (by rw [show mergeExamData [c10r] [c10r] =
    [c10r, c10r] from by decide] at hpw; exact hpw)).1 c10r (List.mem_cons_self _ _)
  exact this rfl

/-- C10 (amended): every output record of merge_exam_data is one of the
input records unmodified; the output is no longer than the two inputs
together; and, provided no primary record carries the Badge: fallback
prefix, two output records at distinct positions that both stem from the
primary list never share an (Exam Number, Exam Date) pair. -/
theorem c10_merge_invariant (msExams credlyExams : List ExamRec) :
    (∀ r ∈ mergeExamData msExams credlyExams, r ∈ msExams ∨ r ∈ credlyExams) ∧
    (mergeExamData msExams credlyExams).length ≤
      msExams.length + credlyExams.length ∧
    ((∀ r ∈ msExams, pyStarts r.examNumber "Badge:" = false) →
      ∀ i j : Fin (mergeExamData msExams credlyExams).length, i ≠ j →
      (mergeExamData msExams credlyExams).get i ∈ msExams →
      (mergeExamData msExams credlyExams).get j ∈ msExams →
      msKey ((mergeExamData msExams credlyExams).get i) ≠
        msKey ((mergeExamData msExams credlyExams).get j)) := by
  have hperm := mergeExamData_perm msExams credlyExams
  refine ⟨?_, ?_, ?_⟩
  · intro r hr
    exact mem_preMerge (hperm.mem_iff.mp hr)
  · rw [hperm.length_eq]
    unfold preMerge
    rw [List.length_append]
    exact Nat.add_le_add
      (dedupStep_sublist msKey msExams []).length_le
      (dedupStep_sublist credlyKey credlyExams _).length_le
  · intro hclean
    have hp2notms : ∀ r ∈ dedupStep credlyKey credlyExams
        (seenStep msKey msExams []), r ∉ msExams := by
      intro r hr hrms
      have hnot := mem_dedupStep_not_seen credlyKey hr
      apply hnot
      rw [credlyKey_eq_msKey (hclean r hrms)]
      exact (mem_seenStep msKey msExams [] _).mpr (Or.inr ⟨r, hrms, rfl⟩)
    have hnd1 : (dedupStep msKey msExams []).Nodup :=
      (dedupStep_pairwise msKey msExams []).imp fun h heq => h (congrArg msKey heq)
    have hnd2 : (dedupStep credlyKey credlyExams
        (seenStep msKey msExams [])).Nodup :=
      (dedupStep_pairwise credlyKey credlyExams _).imp fun h heq => h (congrArg credlyKey heq)
    have hdisj : List.Disjoint (dedupStep msKey msExams [])
        (dedupStep credlyKey credlyExams (seenStep msKey msExams [])) := by
      intro a ha1 ha2
      exact hp2notms a ha2 ((dedupStep_sublist msKey msExams []).subset ha1)
    have hprenodup : (preMerge msExams credlyExams).Nodup :=
      List.nodup_append.mpr ⟨hnd1, hnd2, hdisj⟩
    have hmnodup : (mergeExamData msExams credlyExams).Nodup :=
      hperm.nodup_iff.mpr hprenodup
    intro i j hij hi hj hkeq
    have hne : (mergeExamData msExams credlyExams).get i ≠
        (mergeExamData msExams credlyExams).get j :=
      fun heq => hij (hmnodup.get_inj_iff.mp heq)
    have hmemi : (mergeExamData msExams credlyExams).get i ∈
        dedupStep msKey msExams [] := by
      have hpre := hperm.mem_iff.mp (List.get_mem _ i.1 i.2)
      rcases List.mem_append.mp hpre with h1 | h2
      · exact h1
      · exact absurd hi (hp2notms _ h2)
    have hmemj : (mergeExamData msExams credlyExams).get j ∈
        dedupStep msKey msExams [] := by
      have hpre := hperm.mem_iff.mp (List.get_mem _ j.1 j.2)
      rcases List.mem_append.mp hpre with h1 | h2
      · exact h1
      · exact absurd hj (hp2notms _ h2)
    have hsymm : Symmetric (fun a b : ExamRec => msKey a ≠ msKey b) :=
      fun a b h heq => h heq.symm
    exact ((dedupStep_pairwise msKey msExams []).forall hsymm)
      hmemi hmemj hne hkeq

/-- C10 witness: the invariant theorem applied to a clean two-record
primary list and an empty secondary list, with the conditional third part
instantiated at the two output positions. -/
theorem c10_merge_invariant_witness :
    (mergeExamData c10ms []).length ≤ c10ms.length + ([] : List ExamRec).length ∧
    msKey ((mergeExamData c10ms []).get ⟨0, by decide⟩) ≠
      msKey ((mergeExamData c10ms []).get ⟨1, by decide⟩) :=
  ⟨(c10_merge_invariant c10ms []).2.1,
   (c10_merge_invariant c10ms []).2.2 (by decide) ⟨0, by decide⟩ ⟨1, by decide⟩
     (by decide) (by decide) (by decide)⟩

/-- C4 counterexample: a badge whose issuer has an empty entities list is
extracted with the empty string as issuer, not the placeholder
"Unknown". -/
theorem c4_counterexample :
    extractBadges (Json.obj [("data", Json.arr [c4badge])]) =
      [{ badgeName := "", issuer := "", issueDate := "" }] ∧
    ¬ (∀ r ∈ extractBadges (Json.obj [("data", Json.arr [c4badge])]),
        r.issuer = "Unknown") := by
  decide

/-- C4 (amended): for every badge entry whose issuer entities list is empty
or absent, extract_badges stores the empty string as the issuer value. -/
theorem c4_issuer_empty (badge : Json) (h : entitiesOf badge = []) :
    issuerOf badge = "" ∧ (badgeRecOf badge).issuer = "" := by
  have h1 : issuerOf badge = "" := by
    simp [issuerOf, h]
  exact ⟨h1, h1⟩

/-- C4 witness: the amended issuer rule on a concrete badge with an empty
entities list. -/
theorem c4_issuer_empty_witness :
    issuerOf c4wbadge = "" ∧ (badgeRecOf c4wbadge).issuer = "" :=
  c4_issuer_empty c4wbadge (by rfl)

/-- C5 counterexample: a transcript whose passed-exam entry has no title
fields is extracted with an empty title, refuting the claim that the title
is always non-empty. -/
theorem c5_counterexample :
    extractMicrosoftExams c5doc =
      [{ examTitle := "", examNumber := "", examDate := "",
         source := "Microsoft Learn" }] ∧
    ¬ (∀ r ∈ extractMicrosoftExams c5doc, r.examTitle ≠ "") := by
  have h : extractMicrosoftExams c5doc =
      [{ examTitle := "", examNumber := "", examDate := "",
         source := "Microsoft Learn" }] := by
    have hfind : findPE c5doc = [Json.obj []] := by
      simp [c5doc, findPE, strLower]
    unfold extractMicrosoftExams
    rw [hfind]
    rfl
  refine ⟨h, ?_⟩
  rw [h]
  decide

/-- C5 (amended): every record of the two exam extractors carries the fixed
non-empty source constant of its extractor; all four fields are
always-present strings, and the title, code and date may each be empty. -/
theorem c5_source_invariant :
    (∀ doc r, r ∈ extractMicrosoftExams doc →
       r.source = "Microsoft Learn" ∧ r.source ≠ "") ∧
    (∀ badges r, r ∈ extractCredlyExams badges →
       r.source = "Credly" ∧ r.source ≠ "") := by
  constructor
  · intro doc r hr
    rcases List.mem_map.mp hr with ⟨e, _, rfl⟩
    exact ⟨rfl, (by decide : ("Microsoft Learn" : String) ≠ "")⟩
  · intro badges r hr
    rcases List.mem_filterMap.mp hr with ⟨b, _, hb⟩
    simp only [extractCredlyOne] at hb
    split at hb
    · injection hb with h2
      subst h2
      exact ⟨rfl, (by decide : ("Credly" : String) ≠ "")⟩
    · split at hb
      · injection hb with h2
        subst h2
        exact ⟨rfl, (by decide : ("Credly" : String) ≠ "")⟩
      · exact Option.noConfusion hb

/-- C5 witness: the amended invariant applied to the record extracted from
a one-entry transcript. -/
theorem c5_source_invariant_witness :
    (msRecOfEntry (Json.obj [("examTitle", Json.str "T")])).source =
      "Microsoft Learn" ∧
    (msRecOfEntry (Json.obj [("examTitle", Json.str "T")])).source ≠ "" :=
  c5_source_invariant.1 c5wdoc _
    (by
      have hfind : findPE c5wdoc = [Json.obj [("examTitle", Json.str "T")]] := by
        simp [c5wdoc, findPE, strLower]
      unfold extractMicrosoftExams
      rw [hfind]
      exact List.mem_cons_self _ _)

/-- C6 counterexample: the badge extractor does not search recursively: a
data list nested one level deeper is not found, though the same list at top
level yields a record. -/
theorem c6_counterexample :
    extractBadges c6doc = [] ∧
    extractBadges (Json.obj [("data", Json.arr [c6badge])]) ≠ [] := by
  decide

/-- C6 (amended): the recursive fallback holds for the transcript
extractor: when a key comparing equal to "passedexams" case-insensitively
with a non-empty list value occurs (uniquely) anywhere in the tree,
extract_microsoft_exams extracts exactly that list, entry by entry.  The
badge extractor instead reads only the top-level data key: without it
nothing is extracted. -/
theorem c6_recursive_fallback (doc : Json) (l : List Json)
    (hocc : Occurs doc l) (hne : l ≠ [])
    (huniq : ∀ l2, Occurs doc l2 → l2 = l) :
    extractMicrosoftExams doc = l.map msRecOfEntry ∧
    (∀ kvs, jsonLookup kvs "data" = none → extractBadges (Json.obj kvs) = []) := by
  constructor
  · unfold extractMicrosoftExams
    rw [findPE_complete doc l hocc hne huniq]
  · intro kvs hnone
    simp [extractBadges, arrField, Json.get?, hnone]

/-- C6 witness: the transcript extractor finds a passed-exam list behind a
mixed-case key nested under an unrelated wrapper key. -/
theorem c6_recursive_fallback_witness :
    extractMicrosoftExams c6wdoc = [c6wentry].map msRecOfEntry :=
  (c6_recursive_fallback c6wdoc [c6wentry]
    (Occurs.objRest _ _ _
      (Occurs.objVal _ _ _ _
        (Occurs.head "PassedExams" [c6wentry] [] (by decide))))
    (List.cons_ne_nil _ _)
    (by
      intro l2 h
      have h2 : Occurs (Json.obj
          [("unrelated", Json.str "noise"),
           ("wrap", Json.obj [("PassedExams", Json.arr [c6wentry])])]) l2 := h
      cases h2 with
      | objVal _ _ _ _ hv => cases hv
      | objRest _ _ _ hr =>
          cases hr with
          | objVal _ _ _ _ hv2 =>
              cases hv2 with
              | head _ _ _ hk => rfl
              | objVal _ _ _ _ hv3 =>
                  cases hv3 with
                  | arrHead _ _ _ hv4 =>
                      have hv5 : Occurs (Json.obj
                          [("examTitle", Json.str "Nested exam")]) l2 := hv4
                      cases hv5 with
                      | objVal _ _ _ _ hv6 => cases hv6
                      | objRest _ _ _ hr2 => cases hr2
                  | arrRest _ _ _ hv4 => cases hv4
              | objRest _ _ _ hr2 => cases hr2
          | objRest _ _ _ hr2 => cases hr2)).1

theorem extractCredlyExams_singleton (b : Json) :
    extractCredlyExams [b] =
      (match extractCredlyOne b with
        | some r => [r]
        | none => []) := by
  unfold extractCredlyExams
  cases h : extractCredlyOne b <;> simp [List.filterMap_cons, h]

/-- C7: the badge-to-code mapper.  The first table entry (in declared
order) whose fragment occurs in the lowercased slug supplies the exam code;
failing that, a badge name containing microsoft or github
case-insensitively yields the fallback record tagged with the prefix
Badge: and the original slug; otherwise no record is emitted. -/
theorem c7_badge_mapper (name slug issued : String) :
    (∀ l1 p l2, credlyToExamMap = l1 ++ p :: l2 →
       (∀ q ∈ l1, pyContains (strLower slug) q.1 = false) →
       pyContains (strLower slug) p.1 = true →
       extractCredlyExams [mkBadge name slug issued] =
         [{ examTitle := name, examNumber := p.2, examDate := issued,
            source := "Credly" }]) ∧
    ((∀ q ∈ credlyToExamMap, pyContains (strLower slug) q.1 = false) →
      ((pyContains (strLower name) "microsoft" ||
          pyContains (strLower name) "github") = true →
        extractCredlyExams [mkBadge name slug issued] =
          [{ examTitle := name, examNumber := "Badge: " ++ slug,
             examDate := issued, source := "Credly" }]) ∧
      ((pyContains (strLower name) "microsoft" ||
          pyContains (strLower name) "github") = false →
        extractCredlyExams [mkBadge name slug issued] = [])) := by
  have hslug : strField (objField (mkBadge name slug issued) "badge_template")
      "badge_template_earnable_id" = slug := rfl
  have hname : strField (objField (mkBadge name slug issued) "badge_template")
      "name" = name := rfl
  have hissued : strField (mkBadge name slug issued) "issued_at_date" = issued := rfl
  constructor
  · intro l1 p l2 hdecomp hnone hp
    have hfind : credlyToExamMap.find?
        (fun q => pyContains (strLower slug) q.1) = some p := by
      rw [hdecomp]
      exact find?_append_first _ hnone hp
    rw [extractCredlyExams_singleton]
    simp only [extractCredlyOne, hslug, hname, hissued, hfind]
  · intro hnone
    have hfind : credlyToExamMap.find?
        (fun q => pyContains (strLower slug) q.1) = none := by
      apply List.find?_eq_none.mpr
      intro x hx
      simp [hnone x hx]
    constructor
    · intro hyes
      rw [extractCredlyExams_singleton]
      simp only [extractCredlyOne, hslug, hname, hissued, hfind, hyes, if_true]
    · intro hno
      rw [extractCredlyExams_singleton]
      simp only [extractCredlyOne, hslug, hname, hissued, hfind, hno,
        Bool.false_eq_true, if_false]

/-- C7 witness: a slug containing the first table fragment (in mixed case)
maps to AZ-900. -/
theorem c7_badge_mapper_witness :
    extractCredlyExams [mkBadge "Azure Fundamentals"
        "Microsoft-Certified-Azure-Fundamentals" "2023-05-01"] =
      [{ examTitle := "Azure Fundamentals", examNumber := "AZ-900",
         examDate := "2023-05-01", source := "Credly" }] :=
  (c7_badge_mapper "Azure Fundamentals" "Microsoft-Certified-Azure-Fundamentals"
      "2023-05-01").1
    [] ("microsoft-certified-azure-fundamentals", "AZ-900")
    (credlyToExamMap.drop 1) (by decide) (by decide) (by decide)

/-- C8 counterexample: a Credly badge whose issued_at_date carries a time
part is stored verbatim, not truncated at the first T as the claim states
for every extractor. -/
theorem c8_counterexample :
    extractCredlyExams [c8badge] =
      [{ examTitle := "Some Microsoft Badge",
         examNumber := "Badge: unmapped-slug",
         examDate := "2023-05-01T08:00:00Z", source := "Credly" }] ∧
    beforeT "2023-05-01T08:00:00Z" = "2023-05-01" ∧
    ("2023-05-01T08:00:00Z" : String) ≠ "2023-05-01" := by
  decide

/-- C8 (amended): the transcript extractor stores the text before the
first T of the supplied date (empty when no date is supplied); both Credly
extractors store the issued_at_date value verbatim (empty when absent). -/
theorem c8_date_extraction :
    (∀ e, (msRecOfEntry e).examDate =
        beforeT (pyOr (strField e "examDateTaken") (strField e "ExamDateTaken"))) ∧
    (∀ b r, extractCredlyOne b = some r →
        r.examDate = strField b "issued_at_date") ∧
    (∀ b, (badgeRecOf b).issueDate = strField b "issued_at_date") := by
  refine ⟨?_, ?_, fun b => rfl⟩
  · intro e
    simp only [msRecOfEntry]
    by_cases h : pyOr (strField e "examDateTaken") (strField e "ExamDateTaken") = ""
    · rw [if_pos h, h]
      rfl
    · rw [if_neg h]
  · intro b r hb
    simp only [extractCredlyOne] at hb
    split at hb
    · injection hb with h2
      subst h2
      rfl
    · split at hb
      · injection hb with h2
        subst h2
        rfl
      · exact Option.noConfusion hb

/-- C8 witness: the verbatim rule on a concrete badge mapped through the
fallback branch. -/
theorem c8_date_extraction_witness :
    ({ examTitle := "Another Microsoft Badge",
       examNumber := "Badge: another-unmapped-slug",
       examDate := "2021-01-02", source := "Credly" } : ExamRec).examDate =
      strField c8wbadge "issued_at_date" :=
  c8_date_extraction.2.1 c8wbadge _ (by decide)

/-- C9: error policy of the combined pipeline.  A failed primary fetch or
decode exits non-zero with nothing written; a failed Credly fetch behaves
exactly like a fetch that returned no badges, and the run proceeds; an
empty merged list exits non-zero with nothing written; otherwise the merged
list is written and the exit code is zero. -/
theorem c9_error_policy :
    (∀ u cf, mainModel (Except.error ()) u cf =
       { exitCode := 1, written := none }) ∧
    (∀ doc u, mainModel (Except.ok doc) u (Except.error ()) =
       mainModel (Except.ok doc) u (Except.ok [])) ∧
    (∀ doc u cf,
      (mergeExamData (extractMicrosoftExams doc) (credlyExamsOf u cf) = [] →
        mainModel (Except.ok doc) u cf = { exitCode := 1, written := none }) ∧
      (mergeExamData (extractMicrosoftExams doc) (credlyExamsOf u cf) ≠ [] →
        mainModel (Except.ok doc) u cf =
          { exitCode := 0,
            written := some (mergeExamData (extractMicrosoftExams doc)
              (credlyExamsOf u cf)) })) := by
  refine ⟨fun u cf => rfl, ?_, ?_⟩
  · intro doc u
    cases u <;> rfl
  · intro doc u cf
    constructor
    · intro h
      simp only [mainModel]
      rw [if_pos h]
    · intro h
      simp only [mainModel]
      rw [if_neg h]

/-- C9 witness: a successful run over a one-exam transcript with a failed
Credly fetch writes the merged list and exits zero. -/
theorem c9_error_policy_witness :
    mainModel (Except.ok c9doc) true (Except.error ()) =
      { exitCode := 0,
        written := some (mergeExamData (extractMicrosoftExams c9doc)
          (credlyExamsOf true (Except.error ()))) } :=
  (c9_error_policy.2.2 c9doc true (Except.error ())).2
    (by
      have h1 : extractMicrosoftExams c9doc =
          [{ examTitle := "", examNumber := "AZ-900", examDate := "",
             source := "Microsoft Learn" }] := by
        have hfind : findPE c9doc = [Json.obj [("examNumber", Json.str "AZ-900")]] := by
          simp [c9doc, findPE, strLower]
        unfold extractMicrosoftExams
        rw [hfind]
        rfl
      rw [h1]
      decide)

end ExamTimeline
